import Mathlib

set_option maxRecDepth 100000
set_option maxHeartbeats 1000000

/-!
Shallow embedding of the SimSIMD kernel header (include/simsimd/simsimd.h).

Modelling conventions:
* A vector buffer is a total function `ℕ → α` giving the memory cell at each
  index (bytes for the bit-packed Hamming kernels, 64-bit words for the AVX-512
  kernel, scalars for the float/int kernels).  Loads at any index are defined;
  theorems that depend only on the first `d` cells show that the kernel never
  lets other cells influence the result, and counterexamples that vary cells
  past `d` show when it does.
* float32 arithmetic (FMA accumulation, horizontal adds) is modelled exactly
  over `ℚ`; the final scalar division of the cosine kernels is modelled by the
  IEEE class (finite / NaN / +Inf / -Inf) of `ab / (sqrt a2 * sqrt b2)`.
* Machine integers are `ℕ` (or `ℤ` for the signed int8 path) with an explicit
  `% 2^w` wherever the hardware wraps: `vaddq_u8`/`vaddvq_u8` wrap mod 256,
  `_mm256_mullo_epi16`/`_mm256_add_epi16`/`_mm256_hadd_epi16` wrap mod 2^16,
  `_mm_add_epi64` and the final `size_t` addition wrap mod 2^64.
* The SVE vector length is a parameter: `w` = `svcntw()` lanes of 32 bits,
  `nb` = `svcntb()` byte lanes, with the hardware guarantee `0 < w` (`0 < nb`)
  carried as an argument where the loop needs it to make progress.
-/

/-- Population count of a natural number (the hardware `CNT` / `VPOPCNTQ`
operation), computed with an explicit fuel so that it reduces by `decide`;
`fuel = n` halvings always suffice. -/
def popcountFuel : ℕ → ℕ → ℕ
  | 0, _ => 0
  | fuel + 1, n => if n = 0 then 0 else n % 2 + popcountFuel fuel (n / 2)

/-- Population count of a natural number. -/
def popcount (n : ℕ) : ℕ := popcountFuel n n

/-- Modelled from the spec: the scalar reference for the Hamming kernels.
"treat both buffers as packed bit arrays of length `d` (bits, not elements);
return the count of differing bits, i.e. popcount(a XOR b)".  Buffers are byte
arrays; bit `k` lives in byte `k / 8` at position `k % 8`. -/
def specHammingBits (a b : ℕ → ℕ) (d : ℕ) : ℕ :=
  ∑ k ∈ Finset.range d, ((a (k / 8) ^^^ b (k / 8)) >>> (k % 8)) % 2

/-- Modelled from the spec: the same scalar bit-count reference, with the
buffers addressed as 64-bit words (bit `k` in word `k / 64`), matching the
word-granular AVX-512 kernel's view of memory. -/
def specHammingBits64 (a b : ℕ → ℕ) (d : ℕ) : ℕ :=
  ∑ k ∈ Finset.range d, ((a (k / 64) ^^^ b (k / 64)) >>> (k % 64)) % 2

/-- One SVE predicated multiply-accumulate loop, the common shape of
`simsimd_dot_f32sve`, of each of the three accumulators of
`simsimd_cos_f32sve`, and of the squared-difference accumulator of
`simsimd_euclidean_f32sve`:

    size_t i = 0;
    svfloat32_t acc = svdupq_n_f32(0, 0, 0, 0);
    svbool_t pg_vec = svwhilelt_b32(i, d);
    do {
        svfloat32_t x_vec = svld1_f32(pg_vec, x + i);
        svfloat32_t y_vec = svld1_f32(pg_vec, y + i);
        acc = svmla_f32_x(pg_vec, acc, x_vec, y_vec);
        i += svcntw();
        pg_vec = svwhilelt_b32(i, d);
    } while (svptest_any(svptrue_b32(), pg_vec));

`w` is `svcntw()`.  `svwhilelt_b32 i d` activates lane `j` iff `i + j < d`;
`svld1` yields 0 in inactive lanes; `svmla_..._x` resolves to the unpredicated
FMA on the zero-filled loads, so every lane gets `acc j + x * y` with both
loads masked.  `svptest_any (svptrue ()) (svwhilelt i d)` is `i < d`, so after
`i := i + w` the do-while continues exactly when `i + w < d` held before. -/
def sveMlaLoop (w : ℕ) (hw : 0 < w) (x y : ℕ → ℚ) (d : ℕ) (i : ℕ) (acc : ℕ → ℚ) :
    ℕ → ℚ :=
  if i + w < d then
    sveMlaLoop w hw x y d (i + w)
      (fun j => acc j +
        (if i + j < d then x (i + j) else 0) * (if i + j < d then y (i + j) else 0))
  else
    fun j => acc j +
      (if i + j < d then x (i + j) else 0) * (if i + j < d then y (i + j) else 0)
termination_by d - i
decreasing_by omega

/-- `simsimd_dot_f32sve`: predicated SVE float32 dot product; the final
`svaddv_f32 (svptrue_b32 ()) ab_vec` sums all `w` lanes. -/
def simsimd_dot_f32sve (w : ℕ) (hw : 0 < w) (a b : ℕ → ℚ) (d : ℕ) : ℚ :=
  ∑ j ∈ Finset.range w, sveMlaLoop w hw a b d 0 (fun _ => 0) j

/-- The lane accumulator shared by the fixed-width 128-bit float32 loops
(`simsimd_dot_f32x4neon`, `simsimd_dot_f32x4avx2` and the three accumulators
of `simsimd_cos_f32x4avx2`):

    for (size_t i = 0; i != d; i += 4)
        acc = fma(load(x + i), load(y + i), acc);

`fixed4MlaAcc x y n j` is lane `j` (j < 4) of the accumulator after `n`
iterations; iteration `n` loads the four elements at offsets `4n .. 4n+3`.
The loop index `i` is a `size_t` stepped by 4 from 0, so the loop exits after
exactly `d / 4` iterations when `4 ∣ d` and never exits otherwise (see
`dotF32x4neonLoopTerminates` below); the value is modelled for the
terminating case. -/
def fixed4MlaAcc (x y : ℕ → ℚ) : ℕ → ℕ → ℚ
  | 0, _ => 0
  | n + 1, j => fixed4MlaAcc x y n j + x (4 * n + j) * y (4 * n + j)

/-- `simsimd_dot_f32x4neon`: 128-bit NEON float32 dot product; `vaddvq_f32`
sums the four lanes. -/
def simsimd_dot_f32x4neon (a b : ℕ → ℚ) (d : ℕ) : ℚ :=
  ∑ j ∈ Finset.range 4, fixed4MlaAcc a b (d / 4) j

/-- `_mm_hadd_ps x y = [x0+x1, x2+x3, y0+y1, y2+y3]` (exact over `ℚ`). -/
def hadd_ps (x y : ℕ → ℚ) : ℕ → ℚ :=
  fun l => if l = 0 then x 0 + x 1 else if l = 1 then x 2 + x 3
    else if l = 2 then y 0 + y 1 else y 2 + y 3

/-- Lane 0 after the two `_mm_hadd_ps (v, v)` steps the AVX2 kernels use to
reduce a 4-lane accumulator, followed by the `_mm_cvtsi128_si32` /
`simsimd_f32i32_t`-union bit-cast extraction of lane 0 (the bit-cast
reinterprets, so the extracted scalar is lane 0's value). -/
def hsum4 (v : ℕ → ℚ) : ℚ := hadd_ps (hadd_ps v v) (hadd_ps v v) 0

/-- `simsimd_dot_f32x4avx2`: 128-bit AVX2 float32 dot product. -/
def simsimd_dot_f32x4avx2 (a b : ℕ → ℚ) (d : ℕ) : ℚ :=
  hsum4 (fixed4MlaAcc a b (d / 4))

/-- IEEE class of a floating-point scalar: a finite value, a NaN, or a signed
infinity. -/
inductive FpClass : Type
  | finite : FpClass
  | nan : FpClass
  | pinf : FpClass
  | ninf : FpClass
deriving DecidableEq

/-- IEEE class of the final scalar division `ab / (sqrt a2 * sqrt b2)` of the
cosine kernels, for exact accumulators `a2, b2 ≥ 0` (sums of squares): the
denominator is zero exactly when `a2 = 0` or `b2 = 0`, and IEEE division by
`+0` gives `NaN` for a zero numerator and `±Inf` otherwise; with a nonzero
denominator the exact quotient is finite. -/
def cosDivClass (ab a2 b2 : ℚ) : FpClass :=
  if a2 = 0 ∨ b2 = 0 then
    (if ab = 0 then FpClass.nan else if 0 < ab then FpClass.pinf else FpClass.ninf)
  else FpClass.finite

/-- `simsimd_cos_f32sve`: one predicated SVE pass accumulates `ab`, `a2`, `b2`
(the three accumulators evolve independently, each as one `sveMlaLoop`);
`svaddv_f32` reduces each, and the result of the final scalar division
`ab / (sqrt(a2) * sqrt(b2))` is modelled by its IEEE class. -/
def simsimd_cos_f32sve (w : ℕ) (hw : 0 < w) (a b : ℕ → ℚ) (d : ℕ) : FpClass :=
  cosDivClass
    (∑ j ∈ Finset.range w, sveMlaLoop w hw a b d 0 (fun _ => 0) j)
    (∑ j ∈ Finset.range w, sveMlaLoop w hw a a d 0 (fun _ => 0) j)
    (∑ j ∈ Finset.range w, sveMlaLoop w hw b b d 0 (fun _ => 0) j)

/-- `simsimd_cos_f32x4avx2`: fixed-width AVX2 cosine; three FMA accumulators,
each horizontally reduced by two `_mm_hadd_ps` steps and extracted through the
`simsimd_f32i32_t` union bit-cast; the final scalar division is modelled by
its IEEE class. -/
def simsimd_cos_f32x4avx2 (a b : ℕ → ℚ) (d : ℕ) : FpClass :=
  cosDivClass
    (hsum4 (fixed4MlaAcc a b (d / 4)))
    (hsum4 (fixed4MlaAcc a a (d / 4)))
    (hsum4 (fixed4MlaAcc b b (d / 4)))

/-- `simsimd_euclidean_f32sve` before its final `sqrt`: the predicated SVE
loop computes `svsub_f32_x` of the two masked loads (equal to the masked load
of the pointwise difference) and FMA-accumulates its square; `svaddv_f32`
reduces the lanes.  The kernel returns the square root of this value. -/
def simsimd_euclidean_f32sve_sq (w : ℕ) (hw : 0 < w) (a b : ℕ → ℚ) (d : ℕ) : ℚ :=
  ∑ j ∈ Finset.range w,
    sveMlaLoop w hw (fun k => a k - b k) (fun k => a k - b k) d 0 (fun _ => 0) j

/-- Lane accumulator of `simsimd_hamming_u1x128sve` (a NEON kernel despite its
name), after `n` iterations:

    uint8x16_t d_vec = vdupq_n_u8(0);
    for (size_t i = 0; i != d; i += 16) {
        uint8x16_t a_vec = vld1q_u8(a + i);
        uint8x16_t b_vec = vld1q_u8(b + i);
        uint8x16_t a_xor_b_vec = veorq_u8(a_vec, b_vec);
        d_vec = vaddq_u8(d_vec, vcntq_u8(a_xor_b_vec));
    }

Iteration `n` XORs the 16 bytes at byte offsets `16n .. 16n+15` (`i` indexes
bytes, so the loop consumes `d` bytes), `vcntq_u8` popcounts each byte, and
`vaddq_u8` accumulates each of the 16 lanes wrapping mod 256. -/
def hammingU1x128sveAcc (a b : ℕ → ℕ) : ℕ → ℕ → ℕ
  | 0, _ => 0
  | n + 1, j =>
    (hammingU1x128sveAcc a b n j + popcount (a (16 * n + j) ^^^ b (16 * n + j))) % 256

/-- `simsimd_hamming_u1x128sve`: the loop index is a `size_t` stepped by 16
from 0 and compared with `!=`, so the loop exits after exactly `d / 16`
iterations when `16 ∣ d` and never otherwise; the value is modelled for the
terminating case.  `vaddvq_u8` returns `uint8_t`, so the final horizontal sum
of the 16 lanes also wraps mod 256. -/
def simsimd_hamming_u1x128sve (a b : ℕ → ℕ) (d : ℕ) : ℕ :=
  (∑ j ∈ Finset.range 16, hammingU1x128sveAcc a b (d / 16) j) % 256

/-- The two 64-bit lane accumulators of `simsimd_hamming_u1x128avx512` after
`n` iterations:

    __m128i d_vec = _mm_set_epi64x(0, 0);
    for (size_t i = 0; i != words; i += 2)
        d_vec = _mm_add_epi64(d_vec,
            _mm_popcnt_epi64(_mm_xor_si128(
                _mm_load_si128((__m128i const*)(a64 + i)),
                _mm_load_si128((__m128i const*)(b64 + i)))));

Iteration `n` XORs the two 64-bit words at word indices `2n` and `2n+1`,
popcounts each 64-bit lane (`VPOPCNTQ`), and accumulates each lane wrapping
mod 2^64. -/
def hammingU1x128avx512Acc (a b : ℕ → ℕ) : ℕ → ℕ × ℕ
  | 0 => (0, 0)
  | n + 1 =>
    (((hammingU1x128avx512Acc a b n).1 + popcount (a (2 * n) ^^^ b (2 * n))) % 2 ^ 64,
      ((hammingU1x128avx512Acc a b n).2 + popcount (a (2 * n + 1) ^^^ b (2 * n + 1))) % 2 ^ 64)

/-- `simsimd_hamming_u1x128avx512`: the kernel sets `words = d / 128` and runs
`for (i = 0; i != words; i += 2)` over 64-bit word indices, so it performs
`words / 2` iterations (covering word indices `0 .. words - 1`, i.e. `64 *
(d / 128)` bits) when `words` is even and never exits when `words` is odd;
the value is modelled for the terminating case.  The return combines the two
lanes with a `size_t` addition (`_mm_cvtm64_si64 (_mm_movepi64_pi64 d_vec) +
_mm_extract_epi64 (d_vec, 1)`), wrapping mod 2^64. -/
def simsimd_hamming_u1x128avx512 (a b : ℕ → ℕ) (d : ℕ) : ℕ :=
  ((hammingU1x128avx512Acc a b (d / 128 / 2)).1 +
    (hammingU1x128avx512Acc a b (d / 128 / 2)).2) % 2 ^ 64

/-- One pass of `simsimd_hamming_u1x8sve`:

    size_t i = 0;
    svuint8_t d_vec = svdupq_n_u8(0, ..., 0);
    svbool_t pg_vec = svwhilelt_b8(i, d);
    do {
        svuint8_t a_vec = svld1_u8(pg_vec, a + i);
        svuint8_t b_vec = svld1_u8(pg_vec, b + i);
        svuint8_t a_xor_b_vec = sveor_u8_m(pg_vec, a_vec, b_vec);
        d_vec = svadd_u8_m(pg_vec, d_vec, svcnt_u8_x(pg_vec, a_xor_b_vec));
    } while (svptest_any(svptrue_b32(), pg_vec));   // pg_vec = svwhilelt_b32(i, d)

`nb` is `svcntb()` (byte lanes per vector).  `act` is the current predicate as
a boolean on byte-lane numbers: the first iteration uses `svwhilelt_b8 i d`
(lane `j` active iff `i + j < d`); every later iteration uses
`svwhilelt_b32 i d` reinterpreted as a byte predicate, whose set bits sit at
byte lanes `4k` with `i + k < d`.  The active lanes of `d_vec` accumulate the
byte popcount of the XOR of the two loads, wrapping mod 256 (`svadd_u8_m`);
inactive lanes are unchanged.  `i` advances by `svcntb() * 8` (a bit count),
yet indexes the `uint8_t` buffers, and the continue test
`svptest_any (svptrue_b32 ()) (svwhilelt_b32 i d)` is `i < d`. -/
def u1x8sveLoop (nb : ℕ) (hnb : 0 < nb) (a b : ℕ → ℕ) (d : ℕ) (i : ℕ)
    (act : ℕ → Bool) (dv : ℕ → ℕ) : ℕ → ℕ :=
  if i + nb * 8 < d then
    u1x8sveLoop nb hnb a b d (i + nb * 8)
      (fun j => decide (j % 4 = 0 ∧ (i + nb * 8) + j / 4 < d))
      (fun j => if j < nb ∧ act j = true then
        (dv j + popcount (a (i + j) ^^^ b (i + j))) % 256 else dv j)
  else
    fun j => if j < nb ∧ act j = true then
      (dv j + popcount (a (i + j) ^^^ b (i + j))) % 256 else dv j
termination_by d - i
decreasing_by omega

/-- `simsimd_hamming_u1x8sve`: the do-while above, entered with
`svwhilelt_b8 0 d`, followed by `svaddv_u8 (svptrue_b32 ()) d_vec`, which sums
(into a `uint64_t`) only the byte lanes selected by the `b32` true predicate,
i.e. lanes `0, 4, 8, ...`. -/
def simsimd_hamming_u1x8sve (nb : ℕ) (hnb : 0 < nb) (a b : ℕ → ℕ) (d : ℕ) : ℕ :=
  ∑ j ∈ Finset.range nb,
    if j % 4 = 0 then
      u1x8sveLoop nb hnb a b d 0 (fun j => decide (j < d)) (fun _ => 0) j
    else 0

/-- The 16 16-bit lane accumulators of `simsimd_dot_i8x16avx2` after `n`
iterations of

    for (size_t i = 0; i != d; i += 4)
        ab_vec = _mm256_add_epi16(ab_vec,
            _mm256_mullo_epi16(
                _mm256_cvtepi8_epi16(_mm_loadu_si128((__m128i const*)(a + i))),
                _mm256_cvtepi8_epi16(_mm_loadu_si128((__m128i const*)(b + i)))));

Each iteration loads 16 `int8_t` elements at offsets `4n .. 4n+15` (the load
is 128 bits wide although the index steps by 4), sign-extends each to 16 bits
(value-preserving, so lane `j` holds the value `a (4n+j)`), multiplies
keeping the low 16 bits (`mullo` = product mod 2^16 on the bit patterns), and
adds mod 2^16. -/
def dotI8x16Acc (a b : ℕ → ℤ) : ℕ → ℕ → ℤ
  | 0, _ => 0
  | n + 1, j =>
    (dotI8x16Acc a b n j + a (4 * n + j) * b (4 * n + j) % 65536) % 65536

/-- `_mm256_hadd_epi16 x y` with 16-bit wrap-around: within each 128-bit half
(lanes 0-7 and 8-15), the low four result lanes are adjacent-pair sums of `x`
and the high four are adjacent-pair sums of `y`. -/
def hadd16_epi16 (x y : ℕ → ℤ) : ℕ → ℤ := fun l =>
  (if l < 4 then x (2 * l) + x (2 * l + 1)
   else if l < 8 then y (2 * (l - 4)) + y (2 * (l - 4) + 1)
   else if l < 12 then x (8 + 2 * (l - 8)) + x (8 + 2 * (l - 8) + 1)
   else y (8 + 2 * (l - 12)) + y (8 + 2 * (l - 12) + 1)) % 65536

/-- `simsimd_dot_i8x16avx2`: the loop above (`d / 4` iterations when `4 ∣ d`,
no exit otherwise), then three `_mm256_hadd_epi16 (ab_vec, ab_vec)` steps,
`_mm256_cvtsi256_si32` (lane 0 of the low half) and `& 0xFF`.  Lane values
are kept in `[0, 2^16)` as bit patterns, so `& 0xFF` is `% 256`. -/
def simsimd_dot_i8x16avx2 (a b : ℕ → ℤ) (d : ℕ) : ℤ :=
  let v := dotI8x16Acc a b (d / 4)
  let v1 := hadd16_epi16 v v
  let v2 := hadd16_epi16 v1 v1
  let v3 := hadd16_epi16 v2 v2
  v3 0 % 256

/-- Termination of the `simsimd_dot_f32x4neon` loop
`for (size_t i = 0; i != d; i += 4)`: the index takes the values
`4 * n mod 2^64` and the loop exits iff some such value equals `d`. -/
def dotF32x4neonLoopTerminates (d : ℕ) : Prop :=
  ∃ n : ℕ, (4 * n) % 2 ^ 64 = d

/-- Termination of the `simsimd_dot_f32x4avx2` loop
`for (size_t i = 0; i != d; i += 4)`, identical in shape to the NEON one. -/
def dotF32x4avx2LoopTerminates (d : ℕ) : Prop :=
  ∃ n : ℕ, (4 * n) % 2 ^ 64 = d

/-- Buffers whose four declared elements are all 1 (matching the claimed
input a = b = [1,1,1,1]) but whose memory at index 4 — inside the 16-element
load window of `simsimd_dot_i8x16avx2` although past `d = 4` — also holds 1. -/
def c4oneExtra : ℕ → ℤ := fun k => if k < 5 then 1 else 0

lemma sum_ite_window (f : ℕ → ℚ) (w d i : ℕ) :
    (∑ j ∈ Finset.range w, if i + j < d then f (i + j) else 0) =
      ∑ k ∈ Finset.Ico i (min (i + w) d), f k := by
  rw [← Finset.Ico_filter_lt i (i + w) d, Finset.sum_filter, Finset.sum_Ico_eq_sum_range]
  simp

lemma sveBody_sum (x y : ℕ → ℚ) (w d i : ℕ) (acc : ℕ → ℚ) :
    (∑ j ∈ Finset.range w, (acc j +
        (if i + j < d then x (i + j) else 0) * (if i + j < d then y (i + j) else 0))) =
      (∑ j ∈ Finset.range w, acc j) +
        ∑ k ∈ Finset.Ico i (min (i + w) d), x k * y k := by
  rw [Finset.sum_add_distrib]
  congr 1
  rw [← sum_ite_window (fun k => x k * y k) w d i]
  apply Finset.sum_congr rfl
  intro j _
  by_cases hc : i + j < d
  · rw [if_pos hc, if_pos hc, if_pos hc]
  · rw [if_neg hc, if_neg hc, if_neg hc, zero_mul]

/-- The lane-sum of the SVE multiply-accumulate loop started at offset `i`
adds exactly the products of the elements in `[i, d)` to the lane-sum of the
incoming accumulator. -/
lemma sveMlaLoop_sum (w : ℕ) (hw : 0 < w) (x y : ℕ → ℚ) (d : ℕ) :
    ∀ i acc, (∑ j ∈ Finset.range w, sveMlaLoop w hw x y d i acc j) =
      (∑ j ∈ Finset.range w, acc j) + ∑ k ∈ Finset.Ico i d, x k * y k := by
  suffices H : ∀ m i acc, d - i ≤ m →
      (∑ j ∈ Finset.range w, sveMlaLoop w hw x y d i acc j) =
        (∑ j ∈ Finset.range w, acc j) + ∑ k ∈ Finset.Ico i d, x k * y k by
    exact fun i acc => H (d - i) i acc le_rfl
  intro m
  induction m with
  | zero =>
    intro i acc h
    rw [sveMlaLoop.eq_def, if_neg (by omega), sveBody_sum,
      show min (i + w) d = d from by omega]
  | succ m ih =>
    intro i acc h
    rw [sveMlaLoop.eq_def]
    by_cases hc : i + w < d
    · rw [if_pos hc, ih (i + w) _ (by omega), sveBody_sum,
        show min (i + w) d = i + w from by omega, add_assoc,
        Finset.sum_Ico_consecutive _ (by omega : i ≤ i + w) (by omega : i + w ≤ d)]
    · rw [if_neg hc, sveBody_sum, show min (i + w) d = d from by omega]

/-- The SVE dot product is the exact dot product of the first `d` elements,
for every `d` (including 0 and non-multiples of the lane count `w`), and does
not depend on any element at index `≥ d`. -/
lemma dot_f32sve_eq (w : ℕ) (hw : 0 < w) (a b : ℕ → ℚ) (d : ℕ) :
    simsimd_dot_f32sve w hw a b d = ∑ k ∈ Finset.range d, a k * b k := by
  rw [simsimd_dot_f32sve, sveMlaLoop_sum, Finset.range_eq_Ico]
  simp

/-- Lane sum of `fixed4MlaAcc` after `n` iterations: the exact dot product of
the first `4n` elements. -/
lemma fixed4MlaAcc_sum (x y : ℕ → ℚ) (n : ℕ) :
    (∑ j ∈ Finset.range 4, fixed4MlaAcc x y n j) =
      ∑ k ∈ Finset.range (4 * n), x k * y k := by
  induction n with
  | zero => simp [fixed4MlaAcc]
  | succ n ih =>
    have hsplit : (∑ k ∈ Finset.range (4 * n + 4), x k * y k) =
        (∑ k ∈ Finset.range (4 * n), x k * y k) +
          (x (4 * n) * y (4 * n) + x (4 * n + 1) * y (4 * n + 1) +
            x (4 * n + 2) * y (4 * n + 2) + x (4 * n + 3) * y (4 * n + 3)) := by
      rw [show 4 * n + 4 = (4 * n + 3) + 1 from by ring, Finset.sum_range_succ,
        show 4 * n + 3 = (4 * n + 2) + 1 from by ring, Finset.sum_range_succ,
        show 4 * n + 2 = (4 * n + 1) + 1 from by ring, Finset.sum_range_succ,
        Finset.sum_range_succ]
      ring
    have hfour : (∑ j ∈ Finset.range 4, x (4 * n + j) * y (4 * n + j)) =
        x (4 * n) * y (4 * n) + x (4 * n + 1) * y (4 * n + 1) +
          x (4 * n + 2) * y (4 * n + 2) + x (4 * n + 3) * y (4 * n + 3) := by
      rw [show (4 : ℕ) = 3 + 1 from rfl, Finset.sum_range_succ,
        show (3 : ℕ) = 2 + 1 from rfl, Finset.sum_range_succ,
        show (2 : ℕ) = 1 + 1 from rfl, Finset.sum_range_succ, Finset.sum_range_one]
      ring_nf
    have hstep : (∑ j ∈ Finset.range 4, fixed4MlaAcc x y (n + 1) j) =
        (∑ j ∈ Finset.range 4, fixed4MlaAcc x y n j) +
          ∑ j ∈ Finset.range 4, x (4 * n + j) * y (4 * n + j) := by
      rw [← Finset.sum_add_distrib]
      exact Finset.sum_congr rfl fun j _ => rfl
    rw [hstep, ih, hfour, show 4 * (n + 1) = 4 * n + 4 from by ring, hsplit]

/-- `hsum4` really sums the four lanes. -/
lemma hsum4_eq (v : ℕ → ℚ) : hsum4 v = v 0 + v 1 + v 2 + v 3 := by
  simp [hsum4, hadd_ps]
  ring

/-- The AVX2 hadd-reduction of the fixed 4-lane FMA accumulator equals the
exact dot product of the first `4n` elements. -/
lemma hsum4_fixed4MlaAcc (x y : ℕ → ℚ) (n : ℕ) :
    hsum4 (fixed4MlaAcc x y n) = ∑ k ∈ Finset.range (4 * n), x k * y k := by
  rw [hsum4_eq, ← fixed4MlaAcc_sum]
  rw [Finset.sum_range_succ, Finset.sum_range_succ, Finset.sum_range_succ,
    Finset.sum_range_succ, Finset.sum_range_zero]
  ring

/-- Sum of the lanes of an SVE multiply-accumulate loop entered at `i = 0`
with a zero accumulator: the exact dot product of the first `d` elements. -/
lemma sveMlaVal (w : ℕ) (hw : 0 < w) (x y : ℕ → ℚ) (d : ℕ) :
    (∑ j ∈ Finset.range w, sveMlaLoop w hw x y d 0 (fun _ => 0) j) =
      ∑ k ∈ Finset.range d, x k * y k := by
  rw [sveMlaLoop_sum, Finset.range_eq_Ico]
  simp

/-- `simsimd_hamming_u1x128sve`'s lane accumulator is symmetric in the two
buffers (XOR is commutative). -/
lemma hammingU1x128sveAcc_comm (a b : ℕ → ℕ) (n j : ℕ) :
    hammingU1x128sveAcc a b n j = hammingU1x128sveAcc b a n j := by
  induction n with
  | zero => rfl
  | succ n ih => simp only [hammingU1x128sveAcc, ih, Nat.xor_comm]

/-- `simsimd_hamming_u1x128sve`'s lane accumulator on identical buffers stays
zero (XOR of a byte with itself is 0 and `popcount 0 = 0`). -/
lemma hammingU1x128sveAcc_self (a : ℕ → ℕ) (n j : ℕ) :
    hammingU1x128sveAcc a a n j = 0 := by
  induction n with
  | zero => rfl
  | succ n ih => simp [hammingU1x128sveAcc, ih, Nat.xor_self, popcount, popcountFuel]

/-- The last iteration of the `simsimd_hamming_u1x8sve` do-while (the loop
body executed with the continue test already false). -/
lemma u1x8sveLoop_last (nb : ℕ) (hnb : 0 < nb) (a b : ℕ → ℕ) (d i : ℕ)
    (act : ℕ → Bool) (dv : ℕ → ℕ) (h : ¬ i + nb * 8 < d) :
    u1x8sveLoop nb hnb a b d i act dv = fun j =>
      if j < nb ∧ act j = true then
        (dv j + popcount (a (i + j) ^^^ b (i + j))) % 256 else dv j := by
  rw [u1x8sveLoop.eq_def, if_neg h]

lemma zeroLtFour : (0 : ℕ) < 4 := by norm_num

lemma zeroLtSixteen : (0 : ℕ) < 16 := by norm_num

/-- C2: for every length `d`, including `d = 0` and every `d` that is not a
multiple of the hardware lane count `w`, `simsimd_dot_f32sve` returns the sum
over `i < d` of `a i * b i` (arithmetic modelled exactly): the predicate mask
handles the final partial group and, since `a` and `b` are arbitrary total
functions and the right-hand side only reads indices `< d`, no element outside
the first `d` enters the accumulation. -/
theorem claim_C2_dot_f32sve_correct (w : ℕ) (hw : 0 < w) (a b : ℕ → ℚ) (d : ℕ) :
    simsimd_dot_f32sve w hw a b d = ∑ k ∈ Finset.range d, a k * b k :=
  dot_f32sve_eq w hw a b d

/-- C2 witness: a concrete run with lane count 4 and `d = 3` (a non-multiple
via the masked tail). -/
theorem claim_C2_witness :
    simsimd_dot_f32sve 4 zeroLtFour (fun k => (k : ℚ)) (fun _ => 1) 3 = 3 := by
  refine (claim_C2_dot_f32sve_correct 4 zeroLtFour _ _ 3).trans ?_
  rw [Finset.sum_range_succ, Finset.sum_range_succ, Finset.sum_range_one]
  norm_num

/-- C1: the claim says `simsimd_hamming_u1x128avx512` returns the number of
differing bits over all `d` bits whenever `128 ∣ d`.  The code sets
`words = d / 128` but steps over 64-bit words, so at `d = 256` (buffers of
four 64-bit words, all differing bits in word 2) it processes only words 0
and 1 and returns 0, while the count of differing bits over all 256 bits is
1.  (At `d = 128` the loop `i != words, i += 2` with `words = 1` never
exits.) -/
theorem claim_C1_avx512_counts_half :
    simsimd_hamming_u1x128avx512 (fun i => if i = 2 then 1 else 0) (fun _ => 0) 256 = 0 ∧
      specHammingBits64 (fun i => if i = 2 then 1 else 0) (fun _ => 0) 256 = 1 := by
  constructor
  · decide
  · decide

/-- C5: the claim says every Hamming variant agrees with the scalar reference
popcount over the same `d` bits.  `simsimd_hamming_u1x128sve` indexes the
buffers by bytes `0 .. d-1`, so at `d = 128` (a multiple of 128 bits, i.e.
of 16 bytes) with buffers differing only in byte 20 it counts bits from the
first 128 bytes and returns 8, while the reference over the first 128 bits
(bytes 0-15) is 0. -/
theorem claim_C5_u1x128sve_disagrees_with_reference :
    simsimd_hamming_u1x128sve (fun i => if i = 20 then 255 else 0) (fun _ => 0) 128 = 8 ∧
      specHammingBits (fun i => if i = 20 then 255 else 0) (fun _ => 0) 128 = 0 := by
  constructor
  · decide
  · decide

/-- C10: `simsimd_hamming_u1x128sve` always returns a value below 256: the
lanes accumulate `vaddq_u8` sums wrapping mod 256 and the final `vaddvq_u8`
reduction returns a `uint8_t`, itself a mod-256 sum. -/
theorem claim_C10_u1x128sve_result_lt_256 (a b : ℕ → ℕ) (d : ℕ) (h : 16 ∣ d) :
    simsimd_hamming_u1x128sve a b d < 256 :=
  Nat.mod_lt _ (by norm_num)

/-- C10 witness: `d = 64` bytes of `0xFF` against zeros — the true differing
bit count is 512, yet the kernel's result is below 256. -/
theorem claim_C10_witness :
    simsimd_hamming_u1x128sve (fun _ => 255) (fun _ => 0) 64 < 256 :=
  claim_C10_u1x128sve_result_lt_256 (fun _ => 255) (fun _ => 0) 64 (by norm_num)

/-- C3: the claim says the Hamming kernels interpret `d` as a count of bits,
so with `d = 8` only the first byte matters.  `simsimd_hamming_u1x8sve`
activates `min d (svcntb)` *byte* lanes through `svwhilelt_b8 (0, d)`: with
`d = 8` and in-bounds 8-byte buffers that differ only in byte 4 (bits 32-39,
all outside the first 8 bits) it returns 8, while the bit-interpretation
reference over the first 8 bits is 0.  (For the claim's literal one-byte
buffers the kernel reads the 7 bytes past the buffer, so its result depends
on unowned memory.) -/
theorem claim_C3_u1x8sve_counts_byte_lanes :
    simsimd_hamming_u1x8sve 16 zeroLtSixteen (fun i => if i = 4 then 255 else 0)
        (fun _ => 0) 8 = 8 ∧
      specHammingBits (fun i => if i = 4 then 255 else 0) (fun _ => 0) 8 = 0 := by
  constructor
  · rw [simsimd_hamming_u1x8sve,
      u1x8sveLoop_last 16 zeroLtSixteen _ _ 8 0 _ _ (by norm_num)]
    decide
  · decide

/-- C7: the claim says every kernel loop runs finitely many times regardless
of whether `d` meets the lane-width precondition.  The fixed-width loops
`for (size_t i = 0; i != d; i += 4)` of `simsimd_dot_f32x4neon` and
`simsimd_dot_f32x4avx2` never exit at `d = 3`: every index value is a
multiple of 4 mod 2^64. -/
theorem claim_C7_counterexample :
    ¬ dotF32x4neonLoopTerminates 3 ∧ ¬ dotF32x4avx2LoopTerminates 3 := by
  constructor <;>
  · rintro ⟨n, h⟩
    have h4 : 4 ∣ (4 * n) % 2 ^ 64 :=
      (Nat.dvd_mod_iff (by norm_num)).mpr ⟨n, rfl⟩
    rw [h] at h4
    omega

/-- C7 amended: each fixed-width kernel's loop terminates exactly for the
lengths `d` meeting its step precondition `4 ∣ d` (every `size_t` length);
the predicated SVE loops terminate for every `d` (their models above are
total functions). -/
theorem claim_C7_amended_termination_iff :
    (∀ d : ℕ, d < 2 ^ 64 → (dotF32x4neonLoopTerminates d ↔ 4 ∣ d)) ∧
      (∀ d : ℕ, d < 2 ^ 64 → (dotF32x4avx2LoopTerminates d ↔ 4 ∣ d)) := by
  constructor <;>
  · intro d hd
    constructor
    · rintro ⟨n, h⟩
      rw [← h]
      exact (Nat.dvd_mod_iff (by norm_num)).mpr ⟨n, rfl⟩
    · rintro ⟨c, rfl⟩
      exact ⟨c, Nat.mod_eq_of_lt hd⟩

/-- C7 witness: both fixed-width loops do terminate at the conforming length
`d = 8`. -/
theorem claim_C7_witness :
    dotF32x4neonLoopTerminates 8 ∧ dotF32x4avx2LoopTerminates 8 :=
  ⟨(claim_C7_amended_termination_iff.1 8 (by norm_num)).mpr (by norm_num),
    (claim_C7_amended_termination_iff.2 8 (by norm_num)).mpr (by norm_num)⟩

/-- C8: commutativity of the cited kernels on conforming lengths: the SVE
float32 dot product for every `d`, the NEON fixed-width dot product for
`4 ∣ d`, and the 128-bit Hamming kernel for `16 ∣ d` (the lengths on which
its loop terminates). -/
theorem claim_C8_commutativity :
    (∀ (w : ℕ) (hw : 0 < w) (a b : ℕ → ℚ) (d : ℕ),
        simsimd_dot_f32sve w hw a b d = simsimd_dot_f32sve w hw b a d) ∧
      (∀ (a b : ℕ → ℚ) (d : ℕ), 4 ∣ d →
        simsimd_dot_f32x4neon a b d = simsimd_dot_f32x4neon b a d) ∧
      (∀ (a b : ℕ → ℕ) (d : ℕ), 16 ∣ d →
        simsimd_hamming_u1x128sve a b d = simsimd_hamming_u1x128sve b a d) := by
  refine ⟨fun w hw a b d => ?_, fun a b d _ => ?_, fun a b d _ => ?_⟩
  · rw [dot_f32sve_eq, dot_f32sve_eq]
    exact Finset.sum_congr rfl fun k _ => mul_comm _ _
  · rw [simsimd_dot_f32x4neon, simsimd_dot_f32x4neon, fixed4MlaAcc_sum, fixed4MlaAcc_sum]
    exact Finset.sum_congr rfl fun k _ => mul_comm _ _
  · rw [simsimd_hamming_u1x128sve, simsimd_hamming_u1x128sve]
    congr 1
    exact Finset.sum_congr rfl fun j _ => hammingU1x128sveAcc_comm a b _ j

/-- C8 witness: concrete commutative pairs for all three cited kernels
(lane count 4 with a masked tail for the SVE dot, `d = 4` for the NEON dot,
`d = 16` bytes for the 128-bit Hamming kernel). -/
theorem claim_C8_witness :
    simsimd_dot_f32sve 4 zeroLtFour (fun k => (k : ℚ)) (fun k => (k : ℚ) + 1) 3 =
        simsimd_dot_f32sve 4 zeroLtFour (fun k => (k : ℚ) + 1) (fun k => (k : ℚ)) 3 ∧
      simsimd_dot_f32x4neon (fun k => (k : ℚ)) (fun k => (k : ℚ) + 1) 4 =
        simsimd_dot_f32x4neon (fun k => (k : ℚ) + 1) (fun k => (k : ℚ)) 4 ∧
      simsimd_hamming_u1x128sve (fun k => k % 256) (fun _ => 170) 16 =
        simsimd_hamming_u1x128sve (fun _ => 170) (fun k => k % 256) 16 :=
  ⟨claim_C8_commutativity.1 4 zeroLtFour _ _ 3,
    claim_C8_commutativity.2.1 _ _ 4 (by norm_num),
    claim_C8_commutativity.2.2 _ _ 16 (by norm_num)⟩

/-- C9: self-consistency of the cited kernels: the SVE Euclidean distance of
`a` from itself is `√0 = 0` for every `d` (the subtraction `a - a` is exact,
also in IEEE arithmetic), and the 128-bit Hamming kernel on two copies of the
same buffer returns 0 for every conforming `d` (`16 ∣ d`, the lengths on
which its loop terminates). -/
theorem claim_C9_self_identities :
    (∀ (w : ℕ) (hw : 0 < w) (a : ℕ → ℚ) (d : ℕ),
        Real.sqrt ((simsimd_euclidean_f32sve_sq w hw a a d : ℚ) : ℝ) = 0) ∧
      (∀ (a : ℕ → ℕ) (d : ℕ), 16 ∣ d → simsimd_hamming_u1x128sve a a d = 0) := by
  refine ⟨fun w hw a d => ?_, fun a d _ => ?_⟩
  · have hsq : simsimd_euclidean_f32sve_sq w hw a a d = 0 := by
      rw [simsimd_euclidean_f32sve_sq, sveMlaVal]
      exact Finset.sum_eq_zero fun k _ => by rw [sub_self, zero_mul]
    rw [hsq]
    norm_num
  · rw [simsimd_hamming_u1x128sve,
      Finset.sum_eq_zero fun j _ => hammingU1x128sveAcc_self a _ j]
    rfl

/-- C9 witness: a concrete self-distance for each cited kernel. -/
theorem claim_C9_witness :
    Real.sqrt ((simsimd_euclidean_f32sve_sq 4 zeroLtFour
          (fun k => (k : ℚ)) (fun k => (k : ℚ)) 5 : ℚ) : ℝ) = 0 ∧
      simsimd_hamming_u1x128sve (fun k => k % 256) (fun k => k % 256) 16 = 0 :=
  ⟨claim_C9_self_identities.1 4 zeroLtFour (fun k => (k : ℚ)) 5,
    claim_C9_self_identities.2 (fun k => k % 256) 16 (by norm_num)⟩

/-- C6: with a zero operand (all of `a`, or all of `b`, zero on the first `d`
elements), both cosine kernels return normally, and the IEEE class of the
final scalar division is NaN — a floating-point special value, not an error:
the dot accumulator and the zero operand's norm accumulator are exactly zero,
so the division is `0 / (0 * sqrt ...)` = `0 / +0`.  The fixed-width AVX2
variant is taken on its conforming lengths `4 ∣ d`. -/
theorem claim_C6_cos_zero_vector (w : ℕ) (hw : 0 < w) (a b : ℕ → ℚ) (d : ℕ)
    (hz : (∀ i, i < d → a i = 0) ∨ (∀ i, i < d → b i = 0)) :
    simsimd_cos_f32sve w hw a b d = FpClass.nan ∧
      (4 ∣ d → simsimd_cos_f32x4avx2 a b d = FpClass.nan) := by
  have hab : (∑ k ∈ Finset.range d, a k * b k) = 0 := by
    rcases hz with hza | hzb
    · exact Finset.sum_eq_zero fun k hk => by
        rw [hza k (Finset.mem_range.mp hk), zero_mul]
    · exact Finset.sum_eq_zero fun k hk => by
        rw [hzb k (Finset.mem_range.mp hk), mul_zero]
  have hnorm : (∑ k ∈ Finset.range d, a k * a k) = 0 ∨
      (∑ k ∈ Finset.range d, b k * b k) = 0 := by
    rcases hz with hza | hzb
    · exact Or.inl (Finset.sum_eq_zero fun k hk => by
        rw [hza k (Finset.mem_range.mp hk), zero_mul])
    · exact Or.inr (Finset.sum_eq_zero fun k hk => by
        rw [hzb k (Finset.mem_range.mp hk), zero_mul])
  have hnan : ∀ a2 b2 : ℚ, a2 = 0 ∨ b2 = 0 → cosDivClass 0 a2 b2 = FpClass.nan := by
    intro a2 b2 hz2
    rw [cosDivClass, if_pos hz2, if_pos rfl]
  constructor
  · rw [simsimd_cos_f32sve, sveMlaVal, sveMlaVal, sveMlaVal, hab]
    exact hnan _ _ hnorm
  · intro h4
    have hd : 4 * (d / 4) = d := Nat.mul_div_cancel' h4
    rw [simsimd_cos_f32x4avx2, hsum4_fixed4MlaAcc, hsum4_fixed4MlaAcc,
      hsum4_fixed4MlaAcc, hd, hab]
    exact hnan _ _ hnorm

/-- C6 witness: zero first operand, lane count 4, `d = 5` (masked tail) for
the SVE kernel and `d = 8` for the AVX2 kernel. -/
theorem claim_C6_witness :
    simsimd_cos_f32sve 4 zeroLtFour (fun _ => 0) (fun k => (k : ℚ) + 1) 5 =
        FpClass.nan ∧
      simsimd_cos_f32x4avx2 (fun _ => 0) (fun k => (k : ℚ) + 1) 8 = FpClass.nan :=
  ⟨(claim_C6_cos_zero_vector 4 zeroLtFour (fun _ => 0) (fun k => (k : ℚ) + 1) 5
      (Or.inl fun _ _ => rfl)).1,
    (claim_C6_cos_zero_vector 4 zeroLtFour (fun _ => 0) (fun k => (k : ℚ) + 1) 8
      (Or.inl fun _ _ => rfl)).2 (by norm_num)⟩

/-- C4 counterexample: the claim fixes only the four declared elements
a = b = [1,1,1,1] with `d = 4` and asserts the result 4, but the kernel's
128-bit loads read 16 elements: with both buffers equal to 1 at the
out-of-range index 4 as well, `simsimd_dot_i8x16avx2` returns 5. -/
theorem claim_C4_counterexample :
    c4oneExtra 0 = 1 ∧ c4oneExtra 1 = 1 ∧ c4oneExtra 2 = 1 ∧ c4oneExtra 3 = 1 ∧
      simsimd_dot_i8x16avx2 c4oneExtra c4oneExtra 4 = 5 := by
  refine ⟨rfl, rfl, rfl, rfl, ?_⟩
  decide

/-- C4 amended: `simsimd_dot_i8x16avx2` widens each loaded `int8` lane to 16
bits before multiplying, accumulates mod 2^16, hadd-reduces, and returns only
the low byte; because each iteration loads 16 elements while stepping by 4,
its value at `d = 4` also depends on the 12 loaded elements past the buffer
length, and it returns 4 for a = b = [1,1,1,1] provided those trailing
elements are zero. -/
theorem claim_C4_amended_dot_i8 (a b : ℕ → ℤ)
    (ha1 : ∀ k, k < 4 → a k = 1) (hb1 : ∀ k, k < 4 → b k = 1)
    (ha0 : ∀ k, 4 ≤ k → a k = 0) (hb0 : ∀ k, 4 ≤ k → b k = 0) :
    simsimd_dot_i8x16avx2 a b 4 = 4 := by
  have hv : ∀ j, dotI8x16Acc a b 1 j = if j < 4 then 1 else 0 := by
    intro j
    have hstep : dotI8x16Acc a b 1 j =
        (dotI8x16Acc a b 0 j + a (4 * 0 + j) * b (4 * 0 + j) % 65536) % 65536 := rfl
    rw [hstep]
    by_cases hj : j < 4
    · rw [if_pos hj]
      norm_num [dotI8x16Acc, ha1 j hj, hb1 j hj]
    · rw [if_neg hj]
      norm_num [dotI8x16Acc, ha0 j (by omega), hb0 j (by omega)]
  simp only [simsimd_dot_i8x16avx2, hadd16_epi16]
  norm_num [hv]

/-- C4 witness: the amended claim at the zero-extended concrete input. -/
theorem claim_C4_witness :
    simsimd_dot_i8x16avx2 (fun k => if k < 4 then (1 : ℤ) else 0)
      (fun k => if k < 4 then (1 : ℤ) else 0) 4 = 4 :=
  claim_C4_amended_dot_i8 _ _ (fun _ hk => if_pos hk) (fun _ hk => if_pos hk)
    (fun _ hk => if_neg (by omega)) (fun _ hk => if_neg (by omega))
